import Mathlib

/-!
Verification of the CAIP `code_analysis` utilities.

The repository holds two standalone C++ batch tools:

* `src/code_analysis/get_address_freq.cpp` — reads `./filtered_address.csv`,
  skips a header line, splits every further line at its first comma into two
  address fields, counts each field's occurrences in an
  `unordered_map<string,int>`, prints the number of distinct addresses to
  standard output and writes `address,count` rows to
  `filtered_address_freq_count.csv`.
* `src/code_analysis/read_data.cpp` — reads a contract-info CSV, skips a
  header line, inserts the field before the first comma of every further line
  into an `unordered_set<string>`, prints the set size and writes the
  collected addresses, one per line, after a `contract_address` header.

The development below is a shallow embedding of those two programs.  File
content is a `List Char` (or `none` when `ifstream::open` fails, i.e.
`fin.is_open()` is false).  `std::getline` is modelled by `splitLine`, and the
source's `while (!fin.eof()) { getline(fin, s); <process s> }` loop — which
processes the string left behind by a failed `getline` at end of file — by
`loopLines`.  The `unordered_map` is modelled as an association list in
insertion order with `bump` as `address_map[k]++`; the `unordered_set` as a
duplicate-free list in insertion order with `insertSet` as
`address_set.insert(k)`.  Both C++ hash containers iterate in an unspecified
order, so all ordering-sensitive conclusions are drawn only up to permutation;
insertion order is the concrete representative order used by the model, and —
like the source — the model applies no sorting anywhere.
-/

namespace CAIP

/-- A C++ `std::string` value: the list of its characters. -/
abbrev Line := List Char

/-- Model of one `std::getline(fin, s)` call on the still-unread content of
the stream.  The first component is the string extracted into `s`: the
characters strictly before the first newline (the newline is consumed but not
stored).  The second component is `some rest` when a newline delimiter was
found, with `rest` the content remaining after it and the stream's eof bit
still clear; it is `none` when the read ran into end of file, setting the eof
bit (when nothing at all could be extracted, C++ also sets the fail bit and
leaves `s` erased, i.e. the extracted string is empty). -/
def splitLine : List Char → Line × Option (List Char)
  | [] => ([], none)
  | c :: cs =>
    if c = '\n' then ([], some cs)
    else (c :: (splitLine cs).1, (splitLine cs).2)

/-- Strings processed by the read loop shared by `get_address_freq.cpp` lines
23–28 and `read_data.cpp` lines 60–64, entered with the eof bit clear and the
given content still unread:

`while (!fin.eof()) { getline(fin, s); <process s> }`

The loop body runs after each `getline`, whether or not that read succeeded,
so when the last data line is newline-terminated (eof bit still clear after
reading it), one further iteration processes the empty string left by the
failed read.  The theorems `loopLines_splitLine_none` and
`loopLines_splitLine_some` below check this definition against the
`splitLine` model of `getline`. -/
def loopLines : List Char → List Line
  | [] => [[]]
  | c :: cs =>
    if c = '\n' then [] :: loopLines cs
    else
      match loopLines cs with
      | [] => [[c]]
      | l :: rest => (c :: l) :: rest

/-- Full run of the shared reading phase over the input file: `none` models a
file that could not be opened (`fin.is_open()` false, the whole reading block
is skipped); otherwise the first `getline` consumes the header line, and the
loop processes the rest only when that header read left the eof bit clear. -/
def processFile : Option (List Char) → List Line
  | none => []
  | some cs =>
    match (splitLine cs).2 with
    | none => []
    | some rest => loopLines rest

/-- Model of `data_line.find_first_of(',')` (`get_address_freq.cpp` lines 10,
13, 25; `read_data.cpp` line 51): index of the first comma, or `none` for
`std::string::npos` when the line has no comma. -/
def find_first_of : List Char → Char → Option Nat
  | [], _ => none
  | x :: xs, c =>
    if x = c then some 0 else (find_first_of xs c).map (fun n => n + 1)

/-- Source function `get_first_address` (`get_address_freq.cpp` lines 9–11),
`return data_line.substr(0, data_line.find_first_of(','))`; the loop body at
line 26 inlines the same expression.  When no comma is present,
`find_first_of` returns `npos` and `substr(0, npos)` clamps the count to the
string length, yielding the whole line. -/
def get_first_address (data_line : Line) : Line :=
  match find_first_of data_line ',' with
  | none => data_line
  | some pos => data_line.take pos

/-- Source function `get_second_address` (`get_address_freq.cpp` lines 12–15),
`int pos = data_line.find_first_of(','); return data_line.substr(pos + 1,
data_line.size() - pos - 1)`; the loop body at line 27 inlines the same
expression.  When no comma is present, `npos` stored in the `int` is `-1`, so
the call is `substr(0, size())`: the whole line. -/
def get_second_address (data_line : Line) : Line :=
  match find_first_of data_line ',' with
  | none => data_line
  | some pos => data_line.drop (pos + 1)

/-- The `unordered_map<string, int> address_map` of `get_address_freq.cpp`
line 17, as an association list with pairwise-distinct keys, kept in
insertion order (the container's real iteration order is unspecified). -/
abbrev FreqTable := List (Line × Nat)

/-- Model of `address_map[k]++`: increment the count stored for `k`,
inserting `k` with count 1 when absent (`operator[]` value-initialises the
`int` to 0, then the increment makes it 1). -/
def bump : FreqTable → Line → FreqTable
  | [], k => [(k, 1)]
  | (k', v) :: rest, k =>
    if k' = k then (k', v + 1) :: rest else (k', v) :: bump rest k

/-- Count stored for a key, 0 when absent. -/
def lookupCount : FreqTable → Line → Nat
  | [], _ => 0
  | (k', v) :: rest, k => if k' = k then v else lookupCount rest k

/-- One iteration of the aggregation loop body (`get_address_freq.cpp` lines
25–27): both fields of the processed string are counted. -/
def aggregateLine (m : FreqTable) (s : Line) : FreqTable :=
  bump (bump m (get_first_address s)) (get_second_address s)

/-- Frequency table produced from the processed strings, starting from the
empty map created at program start. -/
def aggregate (ls : List Line) : FreqTable :=
  ls.foldl aggregateLine []

/-- Frequency table the program holds after its reading phase on the given
input file. -/
def runFreq (c : Option (List Char)) : FreqTable :=
  aggregate (processFile c)

/-- Sum of all counts stored in a frequency table. -/
def sumCounts (m : FreqTable) : Nat :=
  (m.map Prod.snd).sum

/-- Observable outcome of one run of `get_address_freq.cpp`: the number
printed to standard output (line 30, `address_map.size()`), the
(address, count) pairs written as data rows (lines 36–38), the full output
file content as lines (header `address,count` from line 35, then the rows),
and the process exit status (line 40, `return 0`). -/
structure ProgramOut where
  stdout : Nat
  rows : List (Line × Nat)
  fileLines : List Line
  exitCode : Nat
deriving DecidableEq

/-- Header line written at `get_address_freq.cpp` line 35. -/
def headerLine : Line := "address,count".data

/-- Data row written at `get_address_freq.cpp` line 37:
`fout << iter->first << ',' << iter->second << endl`. -/
def formatRow (e : Line × Nat) : Line :=
  e.1 ++ ',' :: (Nat.repr e.2).data

/-- End-to-end model of `main` of `get_address_freq.cpp` on an input file
(`none` = open failed).  Note the count is printed to standard output
(line 30) before the output file is even opened (line 34); the trace
`freqTrace` below records that ordering of the two channels. -/
def freqProgram (c : Option (List Char)) : ProgramOut :=
  ⟨(runFreq c).length, runFreq c,
    headerLine :: (runFreq c).map formatRow, 0⟩

/-- One observable output event of the program: a string sent to standard
output, or a line written to the output file. -/
inductive Event where
  | stdoutOut : Line → Event
  | fileOut : Line → Event
deriving DecidableEq

/-- Ordered trace of everything `main` of `get_address_freq.cpp` emits: first
the distinct-address count on standard output (line 30), then the header and
the data rows into the output file (lines 35–38). -/
def freqTrace (c : Option (List Char)) : List Event :=
  Event.stdoutOut (Nat.repr (runFreq c).length).data ::
    Event.fileOut headerLine ::
    (runFreq c).map (fun e => Event.fileOut (formatRow e))

/-- Source function `get_address` (`read_data.cpp` lines 50–52), textually
identical to `get_first_address`. -/
def get_address (data_line : Line) : Line :=
  match find_first_of data_line ',' with
  | none => data_line
  | some pos => data_line.take pos

/-- Model of `address_set.insert(k)` on the `unordered_set<string>` of
`read_data.cpp` line 54: a no-op when the element is present, otherwise the
element is added (placed last in the model's insertion order; the real
container's iteration order is unspecified, and neither it nor the model
sorts). -/
def insertSet (s : List Line) (k : Line) : List Line :=
  if k ∈ s then s else s ++ [k]

/-- Address list `main` of `read_data.cpp` holds after its reading phase
(lines 58–65), in the model's insertion order; these are exactly the lines
written below the `contract_address` header at lines 71–74. -/
def dedupRun (c : Option (List Char)) : List Line :=
  (processFile c).foldl (fun s l => insertSet s (get_address l)) []

/-- Boolean lexicographic order on strings, as C++ `operator<=` on
`std::string` compares them; used only to state (non-)sortedness of output. -/
def lineLeB : List Char → List Char → Bool
  | [], _ => true
  | _ :: _, [] => false
  | a :: as, b :: bs =>
    if a < b then true else if b < a then false else lineLeB as bs

/-! Sanity of the loop model: `loopLines` agrees, step by step, with the
`splitLine` model of `getline`.  When the pending read would hit end of file
(`splitLine` finds no newline), the loop body still runs once on the string
that read leaves behind and the loop then stops; when a newline is found, the
extracted line is processed and the loop continues on the remaining
content. -/

/-- When the next `getline` hits end of file, the loop processes the string
that read extracted (possibly empty, on a failed read) and terminates. -/
theorem loopLines_splitLine_none (cs : List Char) (h : (splitLine cs).2 = none) :
    loopLines cs = [(splitLine cs).1] := by
  induction cs with
  | nil => rfl
  | cons c cs ih =>
    by_cases hc : c = '\n'
    · simp [splitLine, hc] at h
    · simp only [splitLine, if_neg hc] at h ⊢
      simp only [loopLines, if_neg hc, ih h]

/-- When the next `getline` finds a newline, the loop processes the extracted
line and continues on the content after the newline. -/
theorem loopLines_splitLine_some (cs r : List Char) (h : (splitLine cs).2 = some r) :
    loopLines cs = (splitLine cs).1 :: loopLines r := by
  induction cs with
  | nil => simp [splitLine] at h
  | cons c cs ih =>
    by_cases hc : c = '\n'
    · simp only [splitLine, if_pos hc, Option.some.injEq] at h
      subst h
      simp only [loopLines, if_pos hc, splitLine, if_pos hc]
    · simp only [splitLine, if_neg hc] at h ⊢
      simp only [loopLines, if_neg hc, ih h]

/-- Incrementing a key's count raises exactly that key's stored count by 1. -/
theorem lookupCount_bump_self (m : FreqTable) (k : Line) :
    lookupCount (bump m k) k = lookupCount m k + 1 := by
  induction m with
  | nil => simp [bump, lookupCount]
  | cons e rest ih =>
    obtain ⟨k', v⟩ := e
    by_cases h : k' = k
    · simp [bump, lookupCount, h]
    · simp [bump, lookupCount, h, ih]

/-- Incrementing one key leaves every other key's count unchanged. -/
theorem lookupCount_bump_other (m : FreqTable) (k a : Line) (h : a ≠ k) :
    lookupCount (bump m k) a = lookupCount m a := by
  induction m with
  | nil => simp [bump, lookupCount, Ne.symm h]
  | cons e rest ih =>
    obtain ⟨k', v⟩ := e
    by_cases hk : k' = k
    · subst hk
      simp [bump, lookupCount, Ne.symm h]
    · simp [bump, lookupCount, hk, ih]

/-- `bump` never decreases any stored count. -/
theorem lookupCount_le_bump (m : FreqTable) (k a : Line) :
    lookupCount m a ≤ lookupCount (bump m k) a := by
  by_cases h : a = k
  · subst h
    rw [lookupCount_bump_self]
    omega
  · rw [lookupCount_bump_other m k a h]

/-- `bump` adds exactly 1 to the total of all counts. -/
theorem sumCounts_bump (m : FreqTable) (k : Line) :
    sumCounts (bump m k) = sumCounts m + 1 := by
  induction m with
  | nil => simp [bump, sumCounts]
  | cons e rest ih =>
    obtain ⟨k', v⟩ := e
    by_cases h : k' = k
    · simp [bump, sumCounts, h]
      omega
    · simp [bump, sumCounts, h] at ih ⊢
      omega

/-- Key membership after `bump`: the bumped key joins the key set, nothing
else changes. -/
theorem mem_keys_bump (m : FreqTable) (k a : Line) :
    a ∈ (bump m k).map Prod.fst ↔ a ∈ m.map Prod.fst ∨ a = k := by
  induction m with
  | nil => simp [bump]
  | cons e rest ih =>
    obtain ⟨k', v⟩ := e
    by_cases h : k' = k
    · subst h
      simp [bump]
      tauto
    · simp [bump, h, ih]
      tauto

/-- `bump` preserves distinctness of the keys. -/
theorem nodup_keys_bump (m : FreqTable) (k : Line)
    (h : (m.map Prod.fst).Nodup) : ((bump m k).map Prod.fst).Nodup := by
  induction m with
  | nil => simp [bump]
  | cons e rest ih =>
    obtain ⟨k', v⟩ := e
    simp only [List.map_cons, List.nodup_cons] at h
    by_cases hk : k' = k
    · subst hk
      simpa [bump] using h
    · simp only [bump, if_neg hk, List.map_cons, List.nodup_cons]
      exact ⟨fun hmem => ((mem_keys_bump rest k k').mp hmem).elim h.1 hk, ih h.2⟩

/-- Each processed string adds exactly 2 to the total of all counts: one for
each of its two fields, independently of whether the fields coincide. -/
theorem sumCounts_foldl (ls : List Line) (m : FreqTable) :
    sumCounts (ls.foldl aggregateLine m) = sumCounts m + 2 * ls.length := by
  induction ls generalizing m with
  | nil => simp
  | cons l ls ih =>
    simp only [List.foldl_cons, ih, List.length_cons, aggregateLine,
      sumCounts_bump]
    omega

/-- Aggregating further strings never decreases a stored count. -/
theorem lookupCount_le_foldl (ls : List Line) (m : FreqTable) (a : Line) :
    lookupCount m a ≤ lookupCount (ls.foldl aggregateLine m) a := by
  induction ls generalizing m with
  | nil => simp
  | cons l ls ih =>
    refine le_trans ?_ (ih (aggregateLine m l))
    exact le_trans (lookupCount_le_bump m (get_first_address l) a)
      (lookupCount_le_bump (bump m (get_first_address l)) (get_second_address l) a)

/-- Both fields of every processed string end up with a positive count. -/
theorem one_le_lookupCount_foldl (ls : List Line) (m : FreqTable) (l : Line)
    (hl : l ∈ ls) :
    1 ≤ lookupCount (ls.foldl aggregateLine m) (get_first_address l) ∧
    1 ≤ lookupCount (ls.foldl aggregateLine m) (get_second_address l) := by
  induction ls generalizing m with
  | nil => cases hl
  | cons x ls ih =>
    rcases List.mem_cons.mp hl with rfl | hl
    · simp only [List.foldl_cons]
      have h1 : 1 ≤ lookupCount (aggregateLine m l) (get_first_address l) := by
        refine le_trans ?_
          (lookupCount_le_bump (bump m (get_first_address l))
            (get_second_address l) (get_first_address l))
        rw [lookupCount_bump_self]
        omega
      have h2 : 1 ≤ lookupCount (aggregateLine m l) (get_second_address l) := by
        unfold aggregateLine
        rw [lookupCount_bump_self]
        omega
      exact ⟨le_trans h1 (lookupCount_le_foldl ls (aggregateLine m l) _),
        le_trans h2 (lookupCount_le_foldl ls (aggregateLine m l) _)⟩
    · exact ih (aggregateLine m x) hl

/-- The keys present after aggregation are the initial keys together with
both fields of every processed string. -/
theorem mem_keys_foldl (ls : List Line) (m : FreqTable) (a : Line) :
    a ∈ (ls.foldl aggregateLine m).map Prod.fst ↔
      a ∈ m.map Prod.fst ∨
        ∃ l ∈ ls, a = get_first_address l ∨ a = get_second_address l := by
  induction ls generalizing m with
  | nil => simp
  | cons x ls ih =>
    simp only [List.foldl_cons, ih, aggregateLine, mem_keys_bump,
      List.mem_cons]
    constructor
    · rintro (((h | h) | h) | ⟨l, hl, h⟩)
      · exact Or.inl h
      · exact Or.inr ⟨x, Or.inl rfl, Or.inl h⟩
      · exact Or.inr ⟨x, Or.inl rfl, Or.inr h⟩
      · exact Or.inr ⟨l, Or.inr hl, h⟩
    · rintro (h | ⟨l, rfl | hl, h⟩)
      · exact Or.inl (Or.inl (Or.inl h))
      · rcases h with h | h
        · exact Or.inl (Or.inl (Or.inr h))
        · exact Or.inl (Or.inr h)
      · exact Or.inr ⟨l, hl, h⟩

/-- Aggregation keeps the keys of the frequency table pairwise distinct. -/
theorem nodup_keys_foldl (ls : List Line) (m : FreqTable)
    (h : (m.map Prod.fst).Nodup) :
    ((ls.foldl aggregateLine m).map Prod.fst).Nodup := by
  induction ls generalizing m with
  | nil => exact h
  | cons x ls ih =>
    simp only [List.foldl_cons]
    exact ih (aggregateLine m x)
      (nodup_keys_bump _ _ (nodup_keys_bump _ _ h))

/-- `find_first_of` returns `npos` exactly on the lines that do not contain
the sought character. -/
theorem find_first_of_eq_none_iff (l : List Char) (c : Char) :
    find_first_of l c = none ↔ c ∉ l := by
  induction l with
  | nil => simp [find_first_of]
  | cons x xs ih =>
    by_cases hx : x = c
    · simp [find_first_of, hx]
    · simp [find_first_of, hx, ih, Ne.symm hx]

/-- Membership in the modelled `unordered_set` after an insertion. -/
theorem mem_insertSet (s : List Line) (k a : Line) :
    a ∈ insertSet s k ↔ a ∈ s ∨ a = k := by
  by_cases hk : k ∈ s
  · simp only [insertSet, if_pos hk]
    exact ⟨Or.inl, fun h => h.elim id (fun hh => hh ▸ hk)⟩
  · simp [insertSet, hk]

/-- Insertion into the modelled `unordered_set` keeps it duplicate-free. -/
theorem insertSet_nodup (s : List Line) (k : Line) (h : s.Nodup) :
    (insertSet s k).Nodup := by
  by_cases hk : k ∈ s
  · simpa only [insertSet, if_pos hk] using h
  · simp only [insertSet, if_neg hk]
    simpa [List.nodup_append] using ⟨h, hk⟩

/-- The collected address set stays duplicate-free through the reading
loop of the deduplication tool. -/
theorem dedup_foldl_nodup (ls : List Line) (s : List Line) (h : s.Nodup) :
    (ls.foldl (fun t l => insertSet t (get_address l)) s).Nodup := by
  induction ls generalizing s with
  | nil => exact h
  | cons x ls ih =>
    simp only [List.foldl_cons]
    exact ih _ (insertSet_nodup _ _ h)

/-- Membership in the collected address set after the reading loop of the
deduplication tool: the initial elements plus the first field of every
processed string. -/
theorem mem_dedup_foldl (ls : List Line) (s : List Line) (a : Line) :
    a ∈ ls.foldl (fun t l => insertSet t (get_address l)) s ↔
      a ∈ s ∨ ∃ l ∈ ls, a = get_address l := by
  induction ls generalizing s with
  | nil => simp
  | cons x ls ih =>
    simp only [List.foldl_cons, ih, mem_insertSet, List.mem_cons]
    constructor
    · rintro ((h | h) | ⟨l, hl, h⟩)
      · exact Or.inl h
      · exact Or.inr ⟨x, Or.inl rfl, h⟩
      · exact Or.inr ⟨l, Or.inr hl, h⟩
    · rintro (h | ⟨l, rfl | hl, h⟩)
      · exact Or.inl (Or.inl h)
      · exact Or.inl (Or.inr h)
      · exact Or.inr ⟨l, hl, h⟩

/-- Claim C1: over any input file, both fields of every string the loop
processes appear as keys of the frequency table with count at least 1; the
sum of all counts in the table — which are exactly the counts written as the
output data rows — equals 2 times the number of strings processed; and a
string whose two fields coincide contributes 2 to that single key's count. -/
theorem C1_freq_table_invariant (c : Option (List Char)) :
    (∀ l ∈ processFile c,
      1 ≤ lookupCount (runFreq c) (get_first_address l) ∧
      1 ≤ lookupCount (runFreq c) (get_second_address l)) ∧
    sumCounts (runFreq c) = 2 * (processFile c).length ∧
    sumCounts (freqProgram c).rows = 2 * (processFile c).length ∧
    (∀ (m : FreqTable) (l : Line),
      get_first_address l = get_second_address l →
      lookupCount (aggregateLine m l) (get_first_address l) =
        lookupCount m (get_first_address l) + 2) := by
  have hsum : sumCounts (runFreq c) = 2 * (processFile c).length := by
    simpa [runFreq, aggregate, sumCounts] using
      sumCounts_foldl (processFile c) []
  refine ⟨fun l hl => one_le_lookupCount_foldl (processFile c) [] l hl,
    hsum, hsum, ?_⟩
  intro m l hEq
  rw [aggregateLine, ← hEq, lookupCount_bump_self, lookupCount_bump_self]

/-- Witness for C1 at the concrete opened file with content
`"h\nA,B"` and, for the coinciding-fields part, at the line `"A,A"`. -/
theorem C1_freq_table_invariant_witness :
    1 ≤ lookupCount (runFreq (some ("h\nA,B".data)))
        (get_first_address ("A,B".data)) ∧
    sumCounts (runFreq (some ("h\nA,B".data))) =
      2 * (processFile (some ("h\nA,B".data))).length ∧
    lookupCount (aggregateLine [] ("A,A".data)) (get_first_address ("A,A".data)) =
      lookupCount [] (get_first_address ("A,A".data)) + 2 := by
  obtain ⟨h1, h2, _, h4⟩ := C1_freq_table_invariant (some ("h\nA,B".data))
  exact ⟨(h1 ("A,B".data) (by decide)).1, h2, h4 [] ("A,A".data) (by decide)⟩

/-- Claim C2 (refuted by the code): the read-then-check-eof loop processes
one extra, empty record when the last data line is newline-terminated.  On
the file `"address1,address2\nA,B\n"` — a header plus the single data line
`A,B` — the loop processes the empty string after the true last line, the
empty address is aggregated with count 2, and the reported distinct count is
3 instead of 2. -/
theorem C2_eof_spurious_record :
    processFile (some ("address1,address2\nA,B\n".data)) = ["A,B".data, []] ∧
    lookupCount (runFreq (some ("address1,address2\nA,B\n".data))) [] = 2 ∧
    (freqProgram (some ("address1,address2\nA,B\n".data))).stdout = 3 := by
  decide

/-- Claim C3 (refuted by the code on the newline-terminated file): on the
spec's example input with a trailing newline the table also contains the
spurious empty address with count 2, so the output has a fourth data row
`,2`; without the trailing newline the rows are exactly `A,2`, `B,1`,
`C,1` as claimed. -/
theorem C3_example_output :
    runFreq (some ("addr,count\nA,B\nA,C\n".data)) =
      [("A".data, 2), ("B".data, 1), ("C".data, 1), ([], 2)] ∧
    runFreq (some ("addr,count\nA,B\nA,C".data)) =
      [("A".data, 2), ("B".data, 1), ("C".data, 1)] := by
  decide

/-- Claim C4: the number of data rows written equals the number of distinct
addresses occurring across both fields of the processed strings; that same
number (the table size) is the one printed to standard output, and in the
program's output trace it is emitted before anything is written to the
output file. -/
theorem C4_distinct_count (c : Option (List Char)) :
    (freqProgram c).rows.length =
      ((processFile c).flatMap
        (fun l => [get_first_address l, get_second_address l])).toFinset.card ∧
    (freqProgram c).stdout = (freqProgram c).rows.length ∧
    ∃ rest, freqTrace c =
        Event.stdoutOut (Nat.repr (freqProgram c).rows.length).data :: rest ∧
      ∀ e ∈ rest, ∃ l, e = Event.fileOut l := by
  have hkeys : ((runFreq c).map Prod.fst).Nodup :=
    nodup_keys_foldl (processFile c) [] (by simp)
  have hset : ((runFreq c).map Prod.fst).toFinset =
      ((processFile c).flatMap
        (fun l => [get_first_address l, get_second_address l])).toFinset := by
    ext a
    simp only [List.mem_toFinset, List.mem_flatMap, List.mem_cons,
      List.not_mem_nil, or_false]
    rw [show runFreq c = (processFile c).foldl aggregateLine [] from rfl,
      mem_keys_foldl]
    simp only [List.map_nil, List.not_mem_nil, false_or]
  refine ⟨?_, rfl, ⟨_, rfl, ?_⟩⟩
  · calc (freqProgram c).rows.length
        = ((runFreq c).map Prod.fst).length := (List.length_map _ _).symm
      _ = ((runFreq c).map Prod.fst).toFinset.card :=
        (List.toFinset_card_of_nodup hkeys).symm
      _ = _ := by rw [hset]
  · rintro e he
    rcases List.mem_cons.mp he with rfl | he
    · exact ⟨headerLine, rfl⟩
    · rcases List.mem_map.mp he with ⟨x, _, rfl⟩
      exact ⟨formatRow x, rfl⟩

/-- Witness for C4 at the concrete opened file with content `"h\nA,B"`:
2 rows, 2 distinct addresses. -/
theorem C4_distinct_count_witness :
    (freqProgram (some ("h\nA,B".data))).rows.length =
      ((processFile (some ("h\nA,B".data))).flatMap
        (fun l => [get_first_address l, get_second_address l])).toFinset.card :=
  (C4_distinct_count (some ("h\nA,B".data))).1

/-- Claim C5: on any line containing a comma, the splitter's first field is
everything strictly before the first comma (in particular it contains no
comma) and the second field is everything strictly after that comma, so
first field, a comma and second field concatenate back to the line. -/
theorem C5_line_splitter (l : Line) (h : ',' ∈ l) :
    ',' ∉ get_first_address l ∧
    get_first_address l ++ ',' :: get_second_address l = l := by
  induction l with
  | nil => cases h
  | cons c cs ih =>
    by_cases hc : c = ','
    · subst hc
      simp [get_first_address, get_second_address, find_first_of]
    · have hmem : ',' ∈ cs := by
        rcases List.mem_cons.mp h with h1 | h1
        · exact absurd h1.symm hc
        · exact h1
      obtain ⟨ih1, ih2⟩ := ih hmem
      rcases hfind : find_first_of cs ',' with _ | i
      · exact absurd ((find_first_of_eq_none_iff cs ',').mp hfind) (by simpa)
      · have hstep : find_first_of (c :: cs) ',' = some (i + 1) := by
          simp [find_first_of, hc, hfind]
        have hfst : get_first_address (c :: cs) = c :: cs.take i := by
          simp [get_first_address, hstep]
        have hsnd : get_second_address (c :: cs) = cs.drop (i + 1) := by
          simp [get_second_address, hstep]
        simp only [get_first_address, hfind] at ih1
        simp only [get_first_address, get_second_address, hfind] at ih2
        rw [hfst, hsnd]
        constructor
        · simp only [List.mem_cons, not_or]
          exact ⟨Ne.symm hc, ih1⟩
        · simp only [List.cons_append, ih2]

/-- Witness for C5 at the concrete line `"A,B"`. -/
theorem C5_line_splitter_witness :
    ',' ∉ get_first_address ("A,B".data) ∧
    get_first_address ("A,B".data) ++ ',' :: get_second_address ("A,B".data) =
      "A,B".data :=
  C5_line_splitter ("A,B".data) (by decide)

/-- Claim C6: when the input file cannot be opened (`fin.is_open()` is
false) the whole reading block is skipped, so no aggregation happens: the
table stays empty, the distinct-address count printed to standard output is
0, and the output file carries zero data rows (only the header line) — a
silent degraded mode, with no error surfaced. -/
theorem C6_open_failure_empty :
    runFreq none = [] ∧
    (freqProgram none).stdout = 0 ∧
    (freqProgram none).rows = [] ∧
    (freqProgram none).fileLines = [headerLine] := by
  decide

/-- Claim C7: a run is a pure function of the input file content, so two
runs over the same unchanged input produce the same multiset of output data
rows and the same printed distinct-address count (the output-row order is
the hash container's iteration order, hence only compared up to
reordering). -/
theorem C7_idempotent_runs (c1 c2 : Option (List Char)) (h : c1 = c2) :
    Multiset.ofList (freqProgram c1).rows =
      Multiset.ofList (freqProgram c2).rows ∧
    (freqProgram c1).stdout = (freqProgram c2).stdout := by
  subst h
  exact ⟨rfl, rfl⟩

/-- Witness for C7: two runs over the concrete content `"h\nA,B"`. -/
theorem C7_idempotent_runs_witness :
    Multiset.ofList (freqProgram (some ("h\nA,B".data))).rows =
      Multiset.ofList (freqProgram (some ("h\nA,B".data))).rows ∧
    (freqProgram (some ("h\nA,B".data))).stdout =
      (freqProgram (some ("h\nA,B".data))).stdout :=
  C7_idempotent_runs (some ("h\nA,B".data)) (some ("h\nA,B".data)) rfl

/-- Claim C8 counterexample: the deduplication tool stores its addresses in
an `unordered_set` and never sorts, so its output is not sorted.  On the
input `"contract,info\nB,x\nA,y"` the emitted list is `B`, `A` — in
insertion order for the model, and in no case sorted: `B` precedes `A`. -/
theorem C8_unsorted_counterexample :
    dedupRun (some ("contract,info\nB,x\nA,y".data)) = ["B".data, "A".data] ∧
    ¬ List.Sorted (fun a b => lineLeB a b = true)
        (dedupRun (some ("contract,info\nB,x\nA,y".data))) := by
  decide

/-- Claim C8 as amended: after its header line the deduplication tool emits
each distinct first-field address of the strings its read loop processed
exactly once (the list is duplicate-free, and an address appears in it
exactly when it is the first field of some processed string), in the hash
container's unspecified iteration order — no sorting is performed. -/
theorem C8_dedup_unique_addresses (c : Option (List Char)) :
    (dedupRun c).Nodup ∧
    ∀ a, a ∈ dedupRun c ↔ ∃ l ∈ processFile c, a = get_address l := by
  constructor
  · exact dedup_foldl_nodup (processFile c) [] List.nodup_nil
  · intro a
    simpa using mem_dedup_foldl (processFile c) [] a

/-- Witness for C8 as amended, at a concrete input with a duplicated
first field. -/
theorem C8_dedup_unique_addresses_witness :
    (dedupRun (some ("contract,info\nB,x\nA,y\nB,z".data))).Nodup :=
  (C8_dedup_unique_addresses (some ("contract,info\nB,x\nA,y\nB,z".data))).1

/-- Claim C9: on a processed string with no comma, `find_first_of` returns
`npos` (stored as `-1` in the `int`), both `substr` calls yield the whole
string, and the program does not fail: the full line text becomes a single
key whose count the loop body increments by 2. -/
theorem C9_no_comma_whole_line (l : Line) (h : ',' ∉ l) (m : FreqTable) :
    get_first_address l = l ∧
    get_second_address l = l ∧
    lookupCount (aggregateLine m l) l = lookupCount m l + 2 := by
  have hf : find_first_of l ',' = none :=
    (find_first_of_eq_none_iff l ',').mpr h
  have h1 : get_first_address l = l := by simp [get_first_address, hf]
  have h2 : get_second_address l = l := by simp [get_second_address, hf]
  refine ⟨h1, h2, ?_⟩
  rw [aggregateLine, h1, h2, lookupCount_bump_self, lookupCount_bump_self]

/-- Witness for C9 at the concrete comma-free line `"AB"` and the empty
table. -/
theorem C9_no_comma_whole_line_witness :
    get_first_address ("AB".data) = "AB".data ∧
    get_second_address ("AB".data) = "AB".data ∧
    lookupCount (aggregateLine [] ("AB".data)) ("AB".data) =
      lookupCount [] ("AB".data) + 2 :=
  C9_no_comma_whole_line ("AB".data) (by decide) []

/-- Claim C10: when the input file cannot be opened the program still writes
the output file with the header line `address,count` and no data rows,
prints 0 to standard output and exits with status 0 — observationally
identical to a run over a legitimately empty (zero-byte) input file. -/
theorem C10_open_failure_observational :
    freqProgram none = freqProgram (some []) ∧
    (freqProgram none).fileLines = [headerLine] ∧
    (freqProgram none).stdout = 0 ∧
    (freqProgram none).exitCode = 0 := by
  decide

end CAIP
